import Mathlib

/-!
Shallow embedding of
`src/ThreadingBuildingBlocks/tbb-async-sycl/src/tbb-async-sycl.cpp`.

The program computes the triad `c[i] = a[i] + alpha*b[i]` over a length-16
array, offloading the index range `[0, ceil(N*ratio))` to a SYCL device
(inside `AsyncActivity::run`) and the range `[ceil(N*ratio), N)` to a TBB
`parallel_for` on the CPU (`cpu_node`).  A TBB flow graph with a single-shot
`source_node`, an `async_node` bridge (reserve_wait / try_put / release_wait),
a queueing `join_node` and a verifying `out_node` coordinates the two paths.

Floating-point values are modelled as rationals; all constants appearing in
the program (0.5, array indices up to 16) are exactly representable, so the
arithmetic of the embedded functions coincides with the source's.
-/

namespace TbbAsyncSycl

/-- `const size_t array_size = 16;` -/
def array_size : ℕ := 16

/-- `const float ratio = 0.5;` (CPU to GPU offload ratio). -/
def ratio : ℚ := 1/2

/-- `const float alpha = 0.5;` (coeff for triad calculation). -/
def alpha : ℚ := 1/2

/-- `size_t array_size_sycl = ceil(array_size * offload_ratio);` in
`AsyncActivity::run` (this is also `i_start` of `cpu_node`:
`static_cast<size_t>(ceil(array_size * offload_ratio))`). -/
def deviceEnd (total : ℕ) (offload_ratio : ℚ) : ℕ :=
  ⌈(total : ℚ) * offload_ratio⌉₊

/-- The index range written by the device path: `[0, array_size_sycl)`
(the SYCL kernel is launched on `range<1> n_items{array_size_sycl}`). -/
def deviceRange (total : ℕ) (offload_ratio : ℚ) : Finset ℕ :=
  Finset.Ico 0 (deviceEnd total offload_ratio)

/-- The index range written by the CPU path:
`tbb::blocked_range<size_t>{i_start, i_end}` with `i_start = ceil(N*ratio)`,
`i_end = array_size`. -/
def cpuRange (total : ℕ) (offload_ratio : ℚ) : Finset ℕ :=
  Finset.Ico (deviceEnd total offload_ratio) total

/-- Device kernel body (`AsyncActivity::run`):
`c_accessor[index] = a_accessor[index] + b_accessor[index] * coeff`. -/
def deviceKernel (coeff : ℚ) (a b : ℕ → ℚ) (i : ℕ) : ℚ :=
  a i + b i * coeff

/-- CPU kernel body (`cpu_node`): `c_array[i] = a_array[i] + alpha * b_array[i]`. -/
def cpuKernel (al : ℚ) (a b : ℕ → ℚ) (i : ℕ) : ℚ :=
  a i + al * b i

/-- Which of the three global arrays an element assignment targets. -/
inductive Arr
  | A
  | B
  | C
deriving DecidableEq, Repr

/-- The three global arrays `a_array`, `b_array`, `c_array` (of element type
`float`), modelled as total maps from indices to rationals. -/
structure TriadState where
  a : ℕ → ℚ
  b : ℕ → ℚ
  c : ℕ → ℚ

/-- State after the seeding loop of `main`: `a_array[i] = i; b_array[i] = i;`
for `i < array_size` (the output array starts value-initialized to zero). -/
def initState : TriadState :=
  { a := fun i => (i : ℚ), b := fun i => (i : ℚ), c := fun _ => 0 }

/-- One element assignment `target[index] = value`. -/
def writeArr (st : TriadState) : Arr × ℕ × ℚ → TriadState
  | (Arr.A, i, v) => { st with a := Function.update st.a i v }
  | (Arr.B, i, v) => { st with b := Function.update st.b i v }
  | (Arr.C, i, v) => { st with c := Function.update st.c i v }

/-- Apply a sequence of element assignments in order. -/
def applyWrites (ws : List (Arr × ℕ × ℚ)) (st : TriadState) : TriadState :=
  ws.foldl writeArr st

/-- The element assignments performed by the SYCL kernel submitted in
`AsyncActivity::run`: for each index in `[0, array_size_sycl)` one write of
`a_accessor[index] + b_accessor[index] * coeff` into `c` (with
`coeff = alpha`); `a` and `b` are accessed through read-mode accessors only. -/
def deviceWrites (total : ℕ) (r : ℚ) (st : TriadState) : List (Arr × ℕ × ℚ) :=
  (List.range' 0 (deviceEnd total r)).map fun i =>
    (Arr.C, i, deviceKernel alpha st.a st.b i)

/-- The element assignments performed by the `tbb::parallel_for` of
`cpu_node`: for each index in `[i_start, i_end) = [ceil(N*r), N)` one write
of `a_array[i] + alpha * b_array[i]` into `c`. -/
def cpuWrites (total : ℕ) (r : ℚ) (st : TriadState) : List (Arr × ℕ × ℚ) :=
  (List.range' (deviceEnd total r) (total - deviceEnd total r)).map fun i =>
    (Arr.C, i, cpuKernel alpha st.a st.b i)

/-- The result of the dual-path run: all device-path writes and all CPU-path
writes applied to the seeded state (one sequential ordering; claim C9 shows
every interleaving of these writes yields the same state). -/
def runFinal (total : ℕ) (r : ℚ) (st : TriadState) : TriadState :=
  applyWrites (deviceWrites total r st ++ cpuWrites total r st) st

/-- The golden serial recomputation of `out_node`:
`c_gold[i] = a_array[i] + alpha * b_array[i]`, read from the post-run arrays. -/
def c_gold (st : TriadState) (i : ℕ) : ℚ :=
  st.a i + alpha * st.b i

/-- The (array, index) cell an element assignment writes. -/
def writeKey (w : Arr × ℕ × ℚ) : Arr × ℕ :=
  (w.1, w.2.1)

/-- Events of one activation of the async bridge (`AsyncActivity::run`) and
of the enqueued lambda it hands to the single-thread `task_arena`. -/
inductive BridgeEvent
  | reserveWait
  | enqueueWork
  | kernelWait
  | tryPutToken
  | releaseWait
deriving DecidableEq, Repr

/-- The event sequence of one activation of `AsyncActivity::run`, in the
order the code fixes: `gateway.reserve_wait()` runs on the graph thread
strictly before `a.enqueue` hands the lambda over, and the lambda then runs
`wait_and_throw`, `gateway.try_put(sycl_result)`, `gateway.release_wait()`
in program order on the arena thread. -/
def runTrace : List BridgeEvent :=
  [BridgeEvent.reserveWait, BridgeEvent.enqueueWork, BridgeEvent.kernelWait,
   BridgeEvent.tryPutToken, BridgeEvent.releaseWait]

/-- The gateway's outstanding-work counter after a list of events:
`reserve_wait` increments it and `release_wait` decrements it. -/
def outstanding (t : List BridgeEvent) : ℤ :=
  (t.count BridgeEvent.reserveWait : ℤ) - (t.count BridgeEvent.releaseWait : ℤ)

/-- Condition under which `g.wait_for_all()` in `main` may return at a given
point of the activation: the gateway reports no outstanding async work
(`reserve_wait` blocks graph completion until the matching `release_wait`). -/
def waitIdle (t : List BridgeEvent) : Prop :=
  outstanding t = 0

instance (t : List BridgeEvent) : Decidable (waitIdle t) := by
  unfold waitIdle
  infer_instance

/-- Accelerator backend failure surfaced by `.wait_and_throw()`. -/
inductive DeviceError
  | backendFault
deriving DecidableEq, Repr

/-- Outcome of the lambda enqueued by `AsyncActivity::run`: either the SYCL
wait raises (the program installs no recovery around `wait_and_throw`, and
its `exception_handler` calls `std::terminate()`), terminating the process
before any later statement runs, or the wait returns and the lambda goes on
to `gateway.try_put` and `gateway.release_wait`. -/
inductive AsyncOutcome
  | terminated (e : DeviceError)
  | completed (events : List BridgeEvent)
deriving DecidableEq, Repr

/-- Control flow of the enqueued lambda after the kernel submission, as a
function of the device wait's result. -/
def asyncBody (devResult : Except DeviceError Unit) : AsyncOutcome :=
  match devResult with
  | Except.error e => AsyncOutcome.terminated e
  | Except.ok _ =>
      AsyncOutcome.completed [BridgeEvent.tryPutToken, BridgeEvent.releaseWait]

/-- State of the queueing `join_node` (`node_join`): the FIFO queue of each
input port and the pairs already emitted to `out_node`. -/
structure JoinState (α β : Type) where
  port0 : List α
  port1 : List β
  emitted : List (α × β)
deriving DecidableEq, Repr

/-- Start state of `node_join`: empty queues, nothing emitted. -/
def joinInit {α β : Type} : JoinState α β :=
  ⟨[], [], []⟩

/-- After a token arrives at a queueing join, a pair is popped and emitted
when both port queues are nonempty. -/
def joinPush {α β : Type} (q0 : List α) (q1 : List β) (e : List (α × β)) :
    JoinState α β :=
  match q0, q1 with
  | x :: t0, y :: t1 => ⟨t0, t1, e ++ [(x, y)]⟩
  | q0, q1 => ⟨q0, q1, e⟩

/-- One arrival at `node_join`: `Sum.inl` is a token on port 0 (from the
async device path), `Sum.inr` a token on port 1 (from `cpu_node`). -/
def joinStep {α β : Type} (st : JoinState α β) (ev : α ⊕ β) : JoinState α β :=
  match ev with
  | Sum.inl x => joinPush (st.port0 ++ [x]) st.port1 st.emitted
  | Sum.inr y => joinPush st.port0 (st.port1 ++ [y]) st.emitted

/-- Run `node_join` over an arbitrary arrival interleaving. -/
def joinRun {α β : Type} (evs : List (α ⊕ β)) : JoinState α β :=
  evs.foldl joinStep joinInit

/-- The port-0 tokens of an arrival sequence, in arrival order. -/
def received0 {α β : Type} (evs : List (α ⊕ β)) : List α :=
  evs.filterMap Sum.getLeft?

/-- The port-1 tokens of an arrival sequence, in arrival order. -/
def received1 {α β : Type} (evs : List (α ⊕ β)) : List β :=
  evs.filterMap Sum.getRight?

/-- Body of the single-shot `source_node` `in_node`: given the captured guard
flag `n`, it refuses when the flag is set, otherwise emits `ratio` and sets
the flag. -/
def in_node_body (n : Bool) : Bool × Option ℚ :=
  if n then (n, none) else (true, some ratio)

/-- The guard flag and the outputs of the first `k` invocations of
`in_node`, starting from `bool n = false`. -/
def sourceOutputs : ℕ → Bool × List (Option ℚ)
  | 0 => (false, [])
  | k + 1 =>
      let p := sourceOutputs k
      let q := in_node_body p.1
      (q.1, p.2 ++ [q.2])

theorem deviceEnd_le (total : ℕ) (r : ℚ) (hr1 : r ≤ 1) :
    deviceEnd total r ≤ total := by
  rw [deviceEnd, Nat.ceil_le]
  calc (total : ℚ) * r ≤ (total : ℚ) * 1 :=
        mul_le_mul_of_nonneg_left hr1 (Nat.cast_nonneg total)
    _ = (total : ℚ) := mul_one _

/-- C1: for every total `N > 0` and ratio in `[0,1]`, the device range
`[0, ceil(N*r))` and the CPU range `[ceil(N*r), N)` are disjoint, contiguous
half-open ranges whose union is exactly `[0,N)`: no overlap and no gap. -/
theorem c1_partition_totality (total : ℕ) (r : ℚ)
    (htotal : 0 < total) (hr0 : 0 ≤ r) (hr1 : r ≤ 1) :
    Disjoint (deviceRange total r) (cpuRange total r) ∧
      deviceRange total r ∪ cpuRange total r = Finset.Ico 0 total ∧
      deviceRange total r = Finset.Ico 0 (deviceEnd total r) ∧
      cpuRange total r = Finset.Ico (deviceEnd total r) total := by
  refine ⟨?_, ?_, rfl, rfl⟩
  · exact Finset.Ico_disjoint_Ico_consecutive 0 (deviceEnd total r) total
  · exact Finset.Ico_union_Ico_eq_Ico (Nat.zero_le _) (deviceEnd_le total r hr1)

theorem c1_partition_totality_witness :
    0 < 16 ∧ (0:ℚ) ≤ 1/2 ∧ (1:ℚ)/2 ≤ 1 ∧
      (Disjoint (deviceRange 16 (1/2)) (cpuRange 16 (1/2)) ∧
        deviceRange 16 (1/2) ∪ cpuRange 16 (1/2) = Finset.Ico 0 16 ∧
        deviceRange 16 (1/2) = Finset.Ico 0 (deviceEnd 16 (1/2)) ∧
        cpuRange 16 (1/2) = Finset.Ico (deviceEnd 16 (1/2)) 16) :=
  ⟨by decide, by norm_num, by norm_num,
    c1_partition_totality 16 (1/2) (by decide) (by norm_num) (by norm_num)⟩

theorem applyWrites_cons (w : Arr × ℕ × ℚ) (ws : List (Arr × ℕ × ℚ))
    (st : TriadState) :
    applyWrites (w :: ws) st = applyWrites ws (writeArr st w) :=
  rfl

theorem applyWrites_append (l1 l2 : List (Arr × ℕ × ℚ)) (st : TriadState) :
    applyWrites (l1 ++ l2) st = applyWrites l2 (applyWrites l1 st) :=
  List.foldl_append _ _ _ _

theorem applyWrites_ab (ws : List (Arr × ℕ × ℚ)) (st : TriadState)
    (h : ∀ w ∈ ws, w.1 = Arr.C) :
    (applyWrites ws st).a = st.a ∧ (applyWrites ws st).b = st.b := by
  induction ws generalizing st with
  | nil => exact ⟨rfl, rfl⟩
  | cons w t ih =>
      obtain ⟨tag, i, v⟩ := w
      have htag : tag = Arr.C := h _ (List.mem_cons_self _ _)
      subst htag
      have ht := ih (writeArr st (Arr.C, i, v))
        (fun w hw => h w (List.mem_cons_of_mem _ hw))
      exact ⟨ht.1.trans rfl, ht.2.trans rfl⟩

theorem applyWrites_c_range (f : ℕ → ℚ) :
    ∀ (n s : ℕ) (st : TriadState) (j : ℕ),
      (applyWrites ((List.range' s n).map fun i => (Arr.C, i, f i)) st).c j =
        if s ≤ j ∧ j < s + n then f j else st.c j := by
  intro n
  induction n with
  | zero =>
      intro s st j
      rw [if_neg (by omega)]
      rfl
  | succ m ih =>
      intro s st j
      rw [List.range'_succ, List.map_cons, applyWrites_cons, ih]
      have hc : (writeArr st (Arr.C, s, f s)).c j =
          if j = s then f s else st.c j := by
        simp [writeArr, Function.update_apply]
      rw [hc]
      split_ifs with h1 h2 h3 <;>
        first
          | rfl
          | omega
          | · have hjs : j = s := by omega
              rw [hjs]

theorem writes_target_c (total : ℕ) (r : ℚ) (st : TriadState) :
    ∀ w ∈ deviceWrites total r st ++ cpuWrites total r st, w.1 = Arr.C := by
  intro w hw
  rcases List.mem_append.mp hw with h | h <;>
    · obtain ⟨i, _, rfl⟩ := List.mem_map.mp h
      rfl

theorem runFinal_ab (total : ℕ) (r : ℚ) (st : TriadState) :
    (runFinal total r st).a = st.a ∧ (runFinal total r st).b = st.b :=
  applyWrites_ab _ _ (writes_target_c total r st)

theorem runFinal_c (total : ℕ) (r : ℚ) (st : TriadState)
    (hd : deviceEnd total r ≤ total) (j : ℕ) :
    (runFinal total r st).c j =
      if j < deviceEnd total r then deviceKernel alpha st.a st.b j
      else if j < total then cpuKernel alpha st.a st.b j
      else st.c j := by
  rw [runFinal, deviceWrites, cpuWrites, applyWrites_append,
    applyWrites_c_range, applyWrites_c_range]
  split_ifs <;> first | rfl | omega

theorem deviceEnd_16_half : deviceEnd 16 ratio = 8 := by
  rw [deviceEnd, ratio]
  norm_num

/-- C8: increasing the offload ratio never decreases the length of the device
range `[0, ceil(N*r))`. -/
theorem c8_partition_monotone (total : ℕ) (r1 r2 : ℚ)
    (h0 : 0 ≤ r1) (h12 : r1 ≤ r2) (h1 : r2 ≤ 1) :
    (deviceRange total r1).card ≤ (deviceRange total r2).card := by
  simp only [deviceRange, Nat.card_Ico, Nat.sub_zero]
  exact Nat.ceil_le_ceil (mul_le_mul_of_nonneg_left h12 (Nat.cast_nonneg total))

theorem c8_partition_monotone_witness :
    (0:ℚ) ≤ 1/4 ∧ (1:ℚ)/4 ≤ 3/4 ∧ (3:ℚ)/4 ≤ 1 ∧
      (deviceRange 16 (1/4)).card ≤ (deviceRange 16 (3/4)).card :=
  ⟨by norm_num, by norm_num, by norm_num,
    c8_partition_monotone 16 (1/4) (3/4) (by norm_num) (by norm_num) (by norm_num)⟩

/-- C2: with `A[i] = B[i] = i`, `alpha = 0.5`, `N = 16`, `ratio = 0.5`, the
merged result satisfies `C[i] = A[i] + 0.5*B[i]` for every `i < 16` (in
particular `C[4] = 6` and `C[15] = 22.5`), the device path wrote `[0,8)` with
`a[i] + b[i]*coeff` and the CPU path wrote `[8,16)` with `a[i] + alpha*b[i]`,
and the verifier's serial recomputation `c_gold` agrees with the merged
result at every index. -/
theorem c2_end_to_end :
    deviceEnd 16 ratio = 8 ∧
    (∀ i, i < 16 →
      (runFinal 16 ratio initState).c i =
        initState.a i + alpha * initState.b i) ∧
    (∀ i, i < 8 →
      (runFinal 16 ratio initState).c i =
        deviceKernel alpha initState.a initState.b i) ∧
    (∀ i, 8 ≤ i → i < 16 →
      (runFinal 16 ratio initState).c i =
        cpuKernel alpha initState.a initState.b i) ∧
    (∀ i, i < 16 →
      (runFinal 16 ratio initState).c i =
        c_gold (runFinal 16 ratio initState) i) ∧
    (runFinal 16 ratio initState).c 4 = 6 ∧
    (runFinal 16 ratio initState).c 15 = 45 / 2 := by
  have hdle : deviceEnd 16 ratio ≤ 16 := by rw [deviceEnd_16_half]; omega
  have hpath : ∀ j : ℕ, (runFinal 16 ratio initState).c j =
      if j < 8 then deviceKernel alpha initState.a initState.b j
      else if j < 16 then cpuKernel alpha initState.a initState.b j
      else initState.c j := by
    intro j
    rw [runFinal_c 16 ratio initState hdle j, deviceEnd_16_half]
  have hval : ∀ i, i < 16 →
      (runFinal 16 ratio initState).c i = (i : ℚ) + 1 / 2 * i := by
    intro i hi
    rw [hpath i]
    by_cases h8 : i < 8
    · rw [if_pos h8]
      show (i : ℚ) + (i : ℚ) * alpha = _
      rw [alpha]; ring
    · rw [if_neg h8, if_pos hi]
      show (i : ℚ) + alpha * (i : ℚ) = _
      rw [alpha]
  have hab := runFinal_ab 16 ratio initState
  refine ⟨deviceEnd_16_half, ?_, ?_, ?_, ?_, ?_, ?_⟩
  · intro i hi
    rw [hval i hi, alpha]
    rfl
  · intro i hi
    rw [hpath i, if_pos hi]
  · intro i h8 hi
    rw [hpath i, if_neg (by omega), if_pos hi]
  · intro i hi
    rw [hval i hi, c_gold, hab.1, hab.2, alpha]
    rfl
  · rw [hval 4 (by omega)]; norm_num
  · rw [hval 15 (by omega)]; norm_num

theorem c2_end_to_end_witness :
    (runFinal 16 ratio initState).c 4 =
        initState.a 4 + alpha * initState.b 4 ∧
    (runFinal 16 ratio initState).c 15 =
        c_gold (runFinal 16 ratio initState) 15 :=
  ⟨c2_end_to_end.2.1 4 (by omega), c2_end_to_end.2.2.2.2.1 15 (by omega)⟩

/-- C6: at `ratio = 0` the device range `[0, ceil(N*0))` is empty and the CPU
path covers all of `[0,N)`, every output index holding the CPU kernel's
value; at `ratio = 1` the CPU range `[N,N)` is empty and every output index
holds the device kernel's value; both boundary runs complete (are defined)
and produce a fully written output. -/
theorem c6_ratio_boundary (total : ℕ) (st : TriadState) :
    deviceEnd total 0 = 0 ∧
    deviceRange total 0 = ∅ ∧
    cpuRange total 0 = Finset.Ico 0 total ∧
    deviceEnd total 1 = total ∧
    cpuRange total 1 = ∅ ∧
    (∀ j, j < total →
      (runFinal total 0 st).c j = cpuKernel alpha st.a st.b j) ∧
    (∀ j, j < total →
      (runFinal total 1 st).c j = deviceKernel alpha st.a st.b j) := by
  have h0 : deviceEnd total 0 = 0 := by
    rw [deviceEnd, mul_zero]
    exact Nat.ceil_zero
  have h1 : deviceEnd total 1 = total := by
    rw [deviceEnd, mul_one]
    exact Nat.ceil_natCast total
  refine ⟨h0, ?_, ?_, h1, ?_, ?_, ?_⟩
  · rw [deviceRange, h0]
    rfl
  · rw [cpuRange, h0]
  · rw [cpuRange, h1]
    exact Finset.Ico_self total
  · intro j hj
    rw [runFinal_c total 0 st (by omega) j, h0, if_neg (by omega), if_pos hj]
  · intro j hj
    rw [runFinal_c total 1 st (by omega) j, h1, if_pos hj]

theorem c6_ratio_boundary_witness :
    (runFinal 4 0 initState).c 2 = cpuKernel alpha initState.a initState.b 2 ∧
    (runFinal 4 1 initState).c 2 =
        deviceKernel alpha initState.a initState.b 2 :=
  ⟨(c6_ratio_boundary 4 initState).2.2.2.2.2.1 2 (by omega),
   (c6_ratio_boundary 4 initState).2.2.2.2.2.2 2 (by omega)⟩

/-- C10: the run never writes the input arrays: every element assignment of
the device path and of the CPU path targets `c_array`, so after the full run
`a_array` and `b_array` are unchanged, and after the seeded run they still
hold their seed values `a[i] = b[i] = i`. -/
theorem c10_inputs_preserved (total : ℕ) (r : ℚ) (st : TriadState) :
    (runFinal total r st).a = st.a ∧
    (runFinal total r st).b = st.b ∧
    (∀ w ∈ deviceWrites total r st ++ cpuWrites total r st, w.1 = Arr.C) ∧
    (∀ i : ℕ, (runFinal 16 ratio initState).a i = (i : ℚ) ∧
      (runFinal 16 ratio initState).b i = (i : ℚ)) := by
  have hab := runFinal_ab total r st
  have hab16 := runFinal_ab 16 ratio initState
  refine ⟨hab.1, hab.2, writes_target_c total r st, ?_⟩
  intro i
  rw [hab16.1, hab16.2]
  exact ⟨rfl, rfl⟩

theorem c10_inputs_preserved_witness :
    (Arr.C, 0, (0 : ℚ)).1 = Arr.C ∧
    (runFinal 16 ratio initState).a 3 = 3 := by
  have hm : (Arr.C, 0, (0 : ℚ)) ∈
      deviceWrites 16 ratio initState ++ cpuWrites 16 ratio initState := by
    apply List.mem_append_left
    rw [deviceWrites]
    refine List.mem_map.mpr ⟨0, ?_, ?_⟩
    · rw [List.mem_range'_1, deviceEnd_16_half]
      omega
    · show (Arr.C, 0, (0 : ℚ) + (0 : ℚ) * alpha) = (Arr.C, 0, (0 : ℚ))
      norm_num
  exact ⟨(c10_inputs_preserved 16 ratio initState).2.2.1 _ hm,
    ((c10_inputs_preserved 16 ratio initState).2.2.2 3).1⟩

theorem writeArr_comm (w1 w2 : Arr × ℕ × ℚ) (h : writeKey w1 ≠ writeKey w2)
    (st : TriadState) :
    writeArr (writeArr st w1) w2 = writeArr (writeArr st w2) w1 := by
  obtain ⟨t1, i1, v1⟩ := w1
  obtain ⟨t2, i2, v2⟩ := w2
  cases t1 <;> cases t2 <;>
    simp only [writeKey, ne_eq, Prod.mk.injEq, true_and, not_and,
      not_true_eq_false, imp_false] at h <;>
    simp only [writeArr] <;>
    first
      | rfl
      | · have hne : i1 ≠ i2 := fun hc => h hc
          rw [Function.update_comm hne]

theorem writes_keys_nodup (total : ℕ) (r : ℚ) (st : TriadState) :
    ((deviceWrites total r st ++ cpuWrites total r st).map writeKey).Nodup := by
  rw [List.map_append, deviceWrites, cpuWrites, List.map_map, List.map_map]
  have hinj : Function.Injective (fun i : ℕ => (Arr.C, i)) := by
    intro x y hxy
    simpa using hxy
  apply List.Nodup.append
  · exact (List.nodup_range' _ _).map hinj
  · exact (List.nodup_range' _ _).map hinj
  · intro x hx hy
    obtain ⟨i, hi, rfl⟩ := List.mem_map.mp hx
    obtain ⟨j, hj, hji⟩ := List.mem_map.mp hy
    rw [List.mem_range'_1] at hi hj
    have hij : j = i := by simpa [writeKey] using hji
    omega

theorem applyWrites_perm (ws l : List (Arr × ℕ × ℚ)) (st : TriadState)
    (hnd : (ws.map writeKey).Nodup) (hp : l.Perm ws) :
    applyWrites l st = applyWrites ws st := by
  have hndl : (l.map writeKey).Nodup := ((hp.map writeKey).nodup_iff).mpr hnd
  apply List.Perm.foldl_eq' hp
  intro x hx y hy z
  by_cases hxy : x = y
  · rw [hxy]
  · have hk : writeKey x ≠ writeKey y := fun hc =>
      hxy (List.inj_on_of_nodup_map hndl hx hy hc)
    exact writeArr_comm x y hk z

/-- C9: the merged output is deterministic: any two interleavings of the
individual element assignments of the device path and the CPU path (any
permutations of the program's write sequence) applied to the same seeded
input state produce identical final arrays, because all write cells are
pairwise distinct (the two ranges never overlap and each path writes each of
its indices once). -/
theorem c9_deterministic (total : ℕ) (r : ℚ) (st : TriadState)
    (l1 l2 : List (Arr × ℕ × ℚ))
    (h1 : l1.Perm (deviceWrites total r st ++ cpuWrites total r st))
    (h2 : l2.Perm (deviceWrites total r st ++ cpuWrites total r st)) :
    applyWrites l1 st = applyWrites l2 st := by
  have hnd := writes_keys_nodup total r st
  rw [applyWrites_perm _ _ _ hnd h1, applyWrites_perm _ _ _ hnd h2]

theorem c9_deterministic_witness :
    applyWrites
        (deviceWrites 2 ratio initState ++ cpuWrites 2 ratio initState).reverse
        initState =
      applyWrites (deviceWrites 2 ratio initState ++ cpuWrites 2 ratio initState)
        initState :=
  c9_deterministic 2 ratio initState _ _ (List.reverse_perm _) (List.Perm.refl _)

/-- C3: in the event order `AsyncActivity::run` fixes, the work is enqueued
only after `reserve_wait` has run, `release_wait` happens only after
`try_put` has queued the completion token, and at no point of the activation
can `g.wait_for_all` observe a zero outstanding-work counter unless nothing
has happened yet or the completion token is already queued. -/
theorem c3_outstanding_invariant (k : ℕ) :
    (waitIdle (runTrace.take k) →
      k = 0 ∨ BridgeEvent.tryPutToken ∈ runTrace.take k) ∧
    (BridgeEvent.enqueueWork ∈ runTrace.take k →
      BridgeEvent.reserveWait ∈ runTrace.take k) ∧
    (BridgeEvent.releaseWait ∈ runTrace.take k →
      BridgeEvent.tryPutToken ∈ runTrace.take k) := by
  rcases Nat.lt_or_ge k 5 with h | h
  · interval_cases k <;> decide
  · have ht : runTrace.take k = runTrace :=
      List.take_of_length_le (by simpa [runTrace] using h)
    rw [ht]
    exact ⟨fun _ => Or.inr (by decide), fun _ => by decide, fun _ => by decide⟩

theorem c3_outstanding_invariant_witness :
    (0 = 0 ∨ BridgeEvent.tryPutToken ∈ runTrace.take 0) ∧
    BridgeEvent.reserveWait ∈ runTrace.take 2 ∧
    BridgeEvent.tryPutToken ∈ runTrace.take 5 :=
  ⟨(c3_outstanding_invariant 0).1 (by decide),
   (c3_outstanding_invariant 2).2.1 (by decide),
   (c3_outstanding_invariant 5).2.2 (by decide)⟩

theorem sourceOutputs_succ (k : ℕ) :
    sourceOutputs (k + 1) = (true, some ratio :: List.replicate k none) := by
  induction k with
  | zero => rfl
  | succ m ih =>
      have hstep : sourceOutputs (m + 1 + 1) =
          ((in_node_body (sourceOutputs (m + 1)).1).1,
            (sourceOutputs (m + 1)).2 ++
              [(in_node_body (sourceOutputs (m + 1)).1).2]) := rfl
      rw [hstep, ih]
      simp [in_node_body, List.replicate_succ']

/-- C5: starting from the cleared guard flag, `in_node` emits the ratio on
its first invocation and refuses on every later one, so for any number of
invocations the sequence of outputs is one `ratio` followed by refusals, and
the list of values actually emitted (broadcast to both `cpu_node` and the
async bridge) is exactly `[ratio]`. -/
theorem c5_single_shot (k : ℕ) :
    (sourceOutputs (k + 1)).2 = some ratio :: List.replicate k none ∧
    (sourceOutputs (k + 1)).2.filterMap id = [ratio] ∧
    ((sourceOutputs (k + 1)).2.filterMap id).length = 1 := by
  have h := sourceOutputs_succ k
  refine ⟨by rw [h], ?_, ?_⟩ <;>
    · rw [h]
      simp [List.filterMap_cons, List.filterMap_replicate]

theorem received0_cons {α β : Type} (ev : α ⊕ β) (t : List (α ⊕ β)) :
    received0 (ev :: t) = received0 [ev] ++ received0 t := by
  rcases ev with x | y <;> simp [received0]

theorem received1_cons {α β : Type} (ev : α ⊕ β) (t : List (α ⊕ β)) :
    received1 (ev :: t) = received1 [ev] ++ received1 t := by
  rcases ev with x | y <;> simp [received1]

theorem joinStep_spec {α β : Type} (st : JoinState α β) (ev : α ⊕ β)
    (hinv : st.port0 = [] ∨ st.port1 = []) :
    ((joinStep st ev).port0 = [] ∨ (joinStep st ev).port1 = []) ∧
    (joinStep st ev).emitted.map Prod.fst ++ (joinStep st ev).port0 =
      (st.emitted.map Prod.fst ++ st.port0) ++ received0 [ev] ∧
    (joinStep st ev).emitted.map Prod.snd ++ (joinStep st ev).port1 =
      (st.emitted.map Prod.snd ++ st.port1) ++ received1 [ev] := by
  obtain ⟨q0, q1, e⟩ := st
  rcases ev with x | y <;>
    rcases q0 with _ | ⟨a, t0⟩ <;> rcases q1 with _ | ⟨b, t1⟩ <;>
    simp_all [joinStep, joinPush, received0, received1]

theorem joinRunAux_spec {α β : Type} (evs : List (α ⊕ β)) :
    ∀ st : JoinState α β, st.port0 = [] ∨ st.port1 = [] →
      (((evs.foldl joinStep st).port0 = [] ∨
          (evs.foldl joinStep st).port1 = []) ∧
        (evs.foldl joinStep st).emitted.map Prod.fst ++
            (evs.foldl joinStep st).port0 =
          (st.emitted.map Prod.fst ++ st.port0) ++ received0 evs ∧
        (evs.foldl joinStep st).emitted.map Prod.snd ++
            (evs.foldl joinStep st).port1 =
          (st.emitted.map Prod.snd ++ st.port1) ++ received1 evs) := by
  induction evs with
  | nil =>
      intro st h
      refine ⟨h, ?_, ?_⟩ <;> simp [received0, received1]
  | cons ev t ih =>
      intro st h
      have hs := joinStep_spec st ev h
      have ht := ih (joinStep st ev) hs.1
      rw [List.foldl_cons]
      refine ⟨ht.1, ?_, ?_⟩
      · rw [ht.2.1, hs.2.1, received0_cons ev t, List.append_assoc]
      · rw [ht.2.2, hs.2.2, received1_cons ev t, List.append_assoc]

/-- C4: for any interleaving of token arrivals at the queueing join, the
pairs handed to `out_node` are exactly the position-wise pairing of the
port-0 (device) tokens with the port-1 (CPU) tokens: the consumer fires once
per matched activation index, exactly `min` of the two arrival counts many
times (so never while a sibling is missing), and when both paths delivered
the same number `K` of tokens it fires exactly `K` times with both queues
drained. -/
theorem c4_join_pairing {α β : Type} (evs : List (α ⊕ β)) :
    (joinRun evs).emitted = (received0 evs).zip (received1 evs) ∧
    (joinRun evs).emitted.length =
      min (received0 evs).length (received1 evs).length ∧
    ((received0 evs).length = (received1 evs).length →
      (joinRun evs).emitted.length = (received0 evs).length ∧
      (joinRun evs).port0 = [] ∧ (joinRun evs).port1 = []) := by
  obtain ⟨hinv, h0, h1⟩ := joinRunAux_spec evs joinInit (Or.inl rfl)
  have hinv' : (joinRun evs).port0 = [] ∨ (joinRun evs).port1 = [] := hinv
  have h0' : (joinRun evs).emitted.map Prod.fst ++ (joinRun evs).port0 =
      received0 evs := by simpa [joinRun, joinInit] using h0
  have h1' : (joinRun evs).emitted.map Prod.snd ++ (joinRun evs).port1 =
      received1 evs := by simpa [joinRun, joinInit] using h1
  have hzip : (received0 evs).zip (received1 evs) = (joinRun evs).emitted := by
    rw [← h0', ← h1', List.zip_append (by simp), List.zip_map']
    rcases hinv' with hq | hq <;> simp [hq]
  refine ⟨hzip.symm, ?_, ?_⟩
  · rw [hzip.symm, List.length_zip]
  · intro hlen
    have hl0 : (joinRun evs).emitted.length + (joinRun evs).port0.length =
        (received0 evs).length := by
      rw [← h0', List.length_append, List.length_map]
    have hl1 : (joinRun evs).emitted.length + (joinRun evs).port1.length =
        (received1 evs).length := by
      rw [← h1', List.length_append, List.length_map]
    have he : (joinRun evs).emitted.length = (received0 evs).length := by
      rw [hzip.symm, List.length_zip]
      omega
    refine ⟨he, ?_, ?_⟩
    · rw [← List.length_eq_zero]
      omega
    · rw [← List.length_eq_zero]
      omega

theorem c4_join_pairing_witness :
    (joinRun [Sum.inl (10 : ℕ), Sum.inr (20 : ℕ), Sum.inl 11, Sum.inr 21]).emitted.length =
        (received0 [Sum.inl (10 : ℕ), Sum.inr (20 : ℕ), Sum.inl 11, Sum.inr 21]).length ∧
      (joinRun [Sum.inl (10 : ℕ), Sum.inr (20 : ℕ), Sum.inl 11, Sum.inr 21]).port0 = [] ∧
      (joinRun [Sum.inl (10 : ℕ), Sum.inr (20 : ℕ), Sum.inl 11, Sum.inr 21]).port1 = [] :=
  (c4_join_pairing [Sum.inl 10, Sum.inr 20, Sum.inl 11, Sum.inr 21]).2.2 (by decide)

/-- C7: if the device wait raises a `DeviceError`, the enqueued lambda's
control flow terminates the process instead of recovering: the outcome is
`terminated`, not a completion that queues the token, and a join that never
receives a device token on port 0 never emits a pair, so `out_node` is never
invoked with a partial result. -/
theorem c7_device_error_fatal (e : DeviceError) :
    asyncBody (Except.error e) = AsyncOutcome.terminated e ∧
    (∀ evs : List (ℚ ⊕ ℚ), received0 evs = [] →
      (joinRun evs).emitted = []) := by
  refine ⟨rfl, ?_⟩
  intro evs h
  obtain ⟨hinv, h0, h1⟩ := joinRunAux_spec evs joinInit (Or.inl rfl)
  have h0' : (joinRun evs).emitted.map Prod.fst ++ (joinRun evs).port0 =
      received0 evs := by simpa [joinRun, joinInit] using h0
  rw [h] at h0'
  have hmap := List.append_eq_nil.mp h0'
  exact List.map_eq_nil_iff.mp hmap.1

theorem c7_device_error_fatal_witness :
    asyncBody (Except.error DeviceError.backendFault) =
        AsyncOutcome.terminated DeviceError.backendFault ∧
      (joinRun [(Sum.inr 1 : ℚ ⊕ ℚ)]).emitted = [] :=
  ⟨(c7_device_error_fatal DeviceError.backendFault).1,
   (c7_device_error_fatal DeviceError.backendFault).2 [Sum.inr 1] rfl⟩

end TbbAsyncSycl
